import Mathlib

/-!
# Flixor OTA server: build and test configuration

A shallow embedding of the two configuration modules of the repository,
`next.config.js` and `jest.config.js`, together with the part of the host
semantics that gives their string-valued members a meaning:

* the ECMAScript regular expressions written in the Jest configuration
  (pattern syntax, backtracking matching, `RegExp.prototype.test`, captures);
* the way Jest consumes `moduleNameMapper`, `transform` and
  `testPathIgnorePatterns`.

A JavaScript string is modelled as what it is, a sequence of UTF-16 code
units; a pattern built without the `u` flag is read and matched code unit by
code unit. Paths use the POSIX separator, and what the `ts-jest` preset adds to
the configuration object is not part of the repository and is left out.
-/

namespace FlixorOta

/-! ## `next.config.js` -/

/-- One HTTP response header, `{ key, value }`. -/
structure Header where
  key : String
  value : String
deriving DecidableEq, Repr

/-- One entry of the array produced by `headers()`: a route pattern and the
headers served for it. -/
structure HeaderRule where
  source : String
  headers : List Header
deriving DecidableEq, Repr

/-- The settled state of a JavaScript promise. -/
inductive Promise (α : Type) where
  | fulfilled (v : α)
  | rejected (reason : String)
deriving DecidableEq, Repr

/-- What the caller of a member holds right after the call returns: the value
itself, or a promise that delivers it later. -/
inductive Returned (α : Type) where
  | direct (v : α)
  | deferred (p : Promise α)
deriving DecidableEq, Repr

/-- What a call site can supply to a function: the actual arguments and the
process environment visible at the time of the call. -/
structure CallContext where
  args : List String
  env : List (String × String)
deriving DecidableEq, Repr

/-- Body of `headers()` (next.config.js, lines 7-17): the array literal it returns. -/
def headersBody : List HeaderRule :=
  [ { source := "/api/assets",
      headers := [ { key := "Cache-Control",
                     value := "public, max-age=31536000, immutable" } ] } ]

/-- The member `async headers() { return [...] }`. It declares no parameter
and mentions no free variable, so the call context is ignored; being declared
`async`, a call hands back a promise, here fulfilled with the array literal. -/
def headers (_ctx : CallContext) : Returned (List HeaderRule) :=
  Returned.deferred (Promise.fulfilled headersBody)

/-- How a member of an exported configuration object is written in the source. -/
inductive MemberKind where
  | staticValue
  | syncFunction
  | asyncFunction
deriving DecidableEq, Repr

/-- The object exported by `next.config.js`. -/
structure NextConfig where
  output : String
  serverExternalPackages : List String
  headers : CallContext → Returned (List HeaderRule)

/-- The literal `module.exports = { ... }` of next.config.js. -/
def nextConfig : NextConfig :=
  { output := "standalone",
    serverExternalPackages := ["pg", "adm-zip"],
    headers := headers }

/-- The members of the object exported by next.config.js, in source order, each
with the way it is written. -/
def nextConfigMembers : List (String × MemberKind) :=
  [ ("output", MemberKind.staticValue),
    ("serverExternalPackages", MemberKind.staticValue),
    ("headers", MemberKind.asyncFunction) ]

/-! ## `jest.config.js` -/

/-- The `tsconfig` object handed to ts-jest. -/
structure TsConfig where
  jsx : String
  esModuleInterop : Bool
  allowSyntheticDefaultImports : Bool
deriving DecidableEq, Repr

/-- A transform entry `[transformer, { tsconfig }]`. -/
structure Transformer where
  name : String
  tsconfig : TsConfig
deriving DecidableEq, Repr

/-- The object exported by `jest.config.js`. -/
structure JestConfig where
  preset : String
  testEnvironment : String
  moduleDirectories : List String
  setupFiles : List String
  moduleNameMapper : List (String × String)
  transform : List (String × Transformer)
  testPathIgnorePatterns : List String
deriving DecidableEq, Repr

/-- The literal `module.exports = { ... }` of jest.config.js. The string
escapes are those of the source (`\\.` denotes a backslash and a dot). -/
def jestConfig : JestConfig :=
  { preset := "ts-jest",
    testEnvironment := "node",
    moduleDirectories := ["node_modules", "<rootDir>/"],
    setupFiles := ["<rootDir>/.jest/setEnvVars.js"],
    moduleNameMapper := [("^@/(.*)$", "<rootDir>/$1")],
    transform :=
      [ ("^.+\\.tsx?$",
          { name := "ts-jest",
            tsconfig := { jsx := "react-jsx",
                          esModuleInterop := true,
                          allowSyntheticDefaultImports := true } }) ],
    testPathIgnorePatterns := ["<rootDir>/node_modules/", "<rootDir>/.next/"] }

/-- The members of the object exported by jest.config.js, in source order, each
with the way it is written. -/
def jestConfigMembers : List (String × MemberKind) :=
  [ ("preset", MemberKind.staticValue),
    ("testEnvironment", MemberKind.staticValue),
    ("moduleDirectories", MemberKind.staticValue),
    ("setupFiles", MemberKind.staticValue),
    ("moduleNameMapper", MemberKind.staticValue),
    ("transform", MemberKind.staticValue),
    ("testPathIgnorePatterns", MemberKind.staticValue) ]

/-! ## JavaScript strings -/

/-- A UTF-16 code unit, a number below 65536. The definitions below never use
the bound, so the theorems hold for every list of numbers. -/
abbrev CodeUnit := Nat

/-- A JavaScript string: its sequence of code units. -/
abbrev JsString := List CodeUnit

/-- The code units of one character: itself in the basic plane, a surrogate
pair above it. -/
def encodeChar (c : Char) : JsString :=
  if c.toNat < 65536 then [c.toNat]
  else [55296 + (c.toNat - 65536) / 1024, 56320 + (c.toNat - 65536) % 1024]

/-- The JavaScript string a string literal of the source denotes. -/
def utf16 (s : String) : JsString :=
  s.toList.flatMap encodeChar

/-! ## ECMAScript regular expressions (the fragment the configuration needs) -/

/-- Abstract syntax of a pattern. `unit` is a literal code unit, `cls` a
character class (negated or not) given by its members, `group` carries its
capture index. -/
inductive Regex where
  | empty
  | unit (c : CodeUnit)
  | dot
  | cls (neg : Bool) (members : List CodeUnit)
  | bol
  | eol
  | seq (a b : Regex)
  | alt (a b : Regex)
  | star (r : Regex)
  | plus (r : Regex)
  | opt (r : Regex)
  | group (idx : Nat) (r : Regex)
deriving DecidableEq, Repr

/-- The pattern characters with a syntactic role (ECMAScript `SyntaxCharacter`). -/
def isSyntaxChar (c : CodeUnit) : Bool :=
  c = '^'.toNat || c = '$'.toNat || c = '\\'.toNat || c = '.'.toNat || c = '*'.toNat ||
  c = '+'.toNat || c = '?'.toNat || c = '('.toNat || c = ')'.toNat || c = '['.toNat ||
  c = ']'.toNat || c = '\x7b'.toNat || c = '\x7d'.toNat || c = '|'.toNat

/-- ECMAScript `LineTerminator` (LF, CR, U+2028, U+2029): the code units `.`
does not match. -/
def isLineTerminator (c : CodeUnit) : Bool :=
  c = '\n'.toNat || c = '\r'.toNat || c = '\u2028'.toNat || c = '\u2029'.toNat

/-- A disjunction under construction: the index of the group it belongs to
(0 at top level), the alternatives already closed and the terms of the current
alternative, both most recent first. -/
structure Frame where
  idx : Nat
  alts : List Regex
  terms : List Regex
deriving DecidableEq, Repr

/-- A character class under construction: whether it is negated, its members
(most recent first) and whether nothing has been read since the bracket. -/
structure ClassState where
  neg : Bool
  members : List CodeUnit
  fresh : Bool
deriving DecidableEq, Repr

/-- Parser state: the innermost open disjunction, the enclosing ones, the
number of groups opened so far, the character class being read, if any, and
whether a backslash awaits its character. -/
structure PState where
  top : Frame
  stack : List Frame
  groups : Nat
  cls : Option ClassState
  esc : Bool
deriving DecidableEq, Repr

/-- The alternative made of `terms` (given most recent first). -/
def mkSeq (terms : List Regex) : Regex :=
  terms.foldl (fun acc t => Regex.seq t acc) Regex.empty

/-- The disjunction a frame stands for. -/
def closeFrame (f : Frame) : Regex :=
  f.alts.foldl (fun acc a => Regex.alt a acc) (mkSeq f.terms)

/-- Append a term to the current alternative. -/
def pushTerm (s : PState) (t : Regex) : PState :=
  { s with top := { s.top with terms := t :: s.top.terms }, esc := false }

/-- Apply a quantifier to the last term, which must be a single code unit, `.`
or a character class; anything else (nothing to repeat, a second quantifier, a
lazy `?`, a quantified group or assertion) is outside the fragment. -/
def quantify (s : PState) (q : Regex → Regex) : Option PState :=
  match s.top.terms with
  | Regex.unit c :: ts =>
    some { s with top := { s.top with terms := q (Regex.unit c) :: ts } }
  | Regex.dot :: ts => some { s with top := { s.top with terms := q Regex.dot :: ts } }
  | Regex.cls n ms :: ts =>
    some { s with top := { s.top with terms := q (Regex.cls n ms) :: ts } }
  | _ => none

/-- Consume one pattern character inside a character class `k`. Ranges and
class escapes are outside the fragment. -/
def stepClass (s : PState) (k : ClassState) (c : CodeUnit) : Option PState :=
  if s.esc then
    if isSyntaxChar c || c = '/'.toNat || c = '-'.toNat then
      some { s with cls := some { k with members := c :: k.members, fresh := false },
                    esc := false }
    else none
  else if c = '\\'.toNat then some { s with esc := true }
  else if c = ']'.toNat then
    some { pushTerm s (Regex.cls k.neg k.members.reverse) with cls := none }
  else if c = '^'.toNat && k.fresh then
    some { s with cls := some { k with neg := true, fresh := false } }
  else if c = '-'.toNat then none
  else some { s with cls := some { k with members := c :: k.members, fresh := false } }

/-- Consume one pattern character. `none` means a syntax error or a construct
outside the fragment (braces, class escapes, back references, ...). -/
def step (s : PState) (c : CodeUnit) : Option PState :=
  match s.cls with
  | some k => stepClass s k c
  | none =>
    if s.esc then
      if isSyntaxChar c || c = '/'.toNat then some (pushTerm s (Regex.unit c)) else none
    else if c = '\\'.toNat then some { s with esc := true }
    else if c = '('.toNat then
      some { top := { idx := s.groups + 1, alts := [], terms := [] },
             stack := s.top :: s.stack, groups := s.groups + 1, cls := none, esc := false }
    else if c = ')'.toNat then
      match s.stack with
      | [] => none
      | f :: fs =>
        some { top := { f with terms := Regex.group s.top.idx (closeFrame s.top) :: f.terms },
               stack := fs, groups := s.groups, cls := none, esc := false }
    else if c = '|'.toNat then
      some { s with top := { s.top with alts := mkSeq s.top.terms :: s.top.alts, terms := [] } }
    else if c = '*'.toNat then quantify s Regex.star
    else if c = '+'.toNat then quantify s Regex.plus
    else if c = '?'.toNat then quantify s Regex.opt
    else if c = '^'.toNat then some (pushTerm s Regex.bol)
    else if c = '$'.toNat then some (pushTerm s Regex.eol)
    else if c = '.'.toNat then some (pushTerm s Regex.dot)
    else if c = '['.toNat then
      some { s with cls := some { neg := false, members := [], fresh := true } }
    else if c = ']'.toNat || c = '\x7b'.toNat || c = '\x7d'.toNat then none
    else some (pushTerm s (Regex.unit c))

/-- Run `step` over a pattern. -/
def parseLoop : JsString → PState → Option PState
  | [], s => some s
  | c :: t, s =>
    match step s c with
    | some s1 => parseLoop t s1
    | none => none

/-- The state before the first pattern character. -/
def initPState : PState :=
  { top := { idx := 0, alts := [], terms := [] }, stack := [], groups := 0, cls := none,
    esc := false }

/-- The result of `new RegExp(pattern)` (no flags): the parsed pattern, wrapped as
capture 0 (the whole match), or `none` where the constructor would throw or the
pattern leaves the fragment. -/
def parseRegex (pattern : JsString) : Option Regex :=
  match parseLoop pattern initPState with
  | some s =>
    if s.esc then none
    else match s.cls, s.stack with
      | none, [] => some (Regex.group 0 (closeFrame s.top))
      | _, _ => none
  | none => none

/-- A matcher state: the index reached (`endIndex`, counted in code units), the
input left from there, and the captures recorded so far, most recent first. -/
structure MState where
  pos : Nat
  rest : JsString
  caps : List (Nat × JsString)
deriving DecidableEq, Repr

/-- Whether a character class accepts a code unit. -/
def classAccepts (neg : Bool) (members : List CodeUnit) (d : CodeUnit) : Bool :=
  decide (d ∈ members) != neg

/-- A term that consumes exactly one code unit, provided `ok` accepts it. -/
def matchUnit (ok : CodeUnit → Bool) (x : MState) : List MState :=
  match x.rest with
  | d :: t => if ok d then [{ pos := x.pos + 1, rest := t, caps := x.caps }] else []
  | [] => []

/-- ECMAScript `RepeatMatcher` for a greedy unbounded quantifier: the states
after one more non-empty iteration followed by further ones come first, the
state with no further iteration last. An iteration that does not advance is
discarded, so each level consumes input and `fuel` above the length of the
remaining input is never exhausted. -/
def repeatL (m : MState → List MState) : Nat → MState → List MState
  | 0, x => [x]
  | fuel + 1, x =>
    ((m x).filter (fun y => decide (y.pos ≠ x.pos))).flatMap (repeatL m fuel) ++ [x]

/-- All the ways pattern `r` can match from state `x`, in the order a
backtracking matcher tries them; the head is the match ECMAScript reports. -/
def matchL : Regex → MState → List MState
  | Regex.empty, x => [x]
  | Regex.unit c, x => matchUnit (fun d => decide (d = c)) x
  | Regex.dot, x => matchUnit (fun d => !isLineTerminator d) x
  | Regex.cls neg ms, x => matchUnit (classAccepts neg ms) x
  | Regex.bol, x => if x.pos = 0 then [x] else []
  | Regex.eol, x =>
    match x.rest with
    | [] => [x]
    | _ :: _ => []
  | Regex.seq a b, x => (matchL a x).flatMap (matchL b)
  | Regex.alt a b, x => matchL a x ++ matchL b x
  | Regex.star r, x => repeatL (matchL r) (x.rest.length + 1) x
  | Regex.plus r, x =>
    (matchL r x).flatMap (fun y => repeatL (matchL r) (y.rest.length + 1) y)
  | Regex.opt r, x => (matchL r x).filter (fun y => decide (y.pos ≠ x.pos)) ++ [x]
  | Regex.group i r, x =>
    (matchL r x).map
      (fun y => { y with caps := (i, x.rest.take (y.pos - x.pos)) :: y.caps })

/-- The search loop of `RegExpBuiltinExec` without the global or sticky flag:
try a match at the current index, and on failure at the next one, up to and
including the end of the input. -/
def execFrom (r : Regex) : Nat → JsString → Option MState
  | pos, [] => (matchL r { pos := pos, rest := [], caps := [] }).head?
  | pos, c :: t =>
    match (matchL r { pos := pos, rest := c :: t, caps := [] }).head? with
    | some y => some y
    | none => execFrom r (pos + 1) t

/-- Result of `regex.exec(input)`: the final state of the first match. -/
def exec (r : Regex) (input : JsString) : Option MState :=
  execFrom r 0 input

/-- Result of `regex.test(input)`. -/
def test (r : Regex) (input : JsString) : Bool :=
  (exec r input).isSome

/-- Source of `new RegExp(patterns.join('|'))`. -/
def joinPatterns : List JsString → JsString
  | [] => []
  | [p] => p
  | p :: q :: more => p ++ '|'.toNat :: joinPatterns (q :: more)

/-! ## How Jest consumes the patterns -/

/-- The text of capture `n` in a match result; an unset capture is rendered as
the empty string. -/
def groupText (caps : List (Nat × JsString)) (n : Nat) : JsString :=
  match caps.lookup n with
  | some s => s
  | none => []

/-- Whether a code unit is a decimal digit. -/
def isDigitUnit (c : CodeUnit) : Bool :=
  decide ('0'.toNat ≤ c) && decide (c ≤ '9'.toNat)

/-- Decimal value of a run of digits (`parseInt(index, 10)`). -/
def digitsValue (ds : JsString) : Nat :=
  ds.foldl (fun n d => 10 * n + (d - '0'.toNat)) 0

/-- Scanner state of the replacement `target.replace(/\$([0-9]+)/g, ...)`:
the output so far and, after a dollar sign, the digits read since. -/
structure Subst where
  out : JsString
  pending : Option JsString
deriving DecidableEq, Repr

/-- Close a pending `$digits` reference: a dollar sign without digits stays. -/
def flush (caps : List (Nat × JsString)) (s : Subst) : JsString :=
  match s.pending with
  | none => s.out
  | some [] => s.out ++ ['$'.toNat]
  | some (d :: ds) => s.out ++ groupText caps (digitsValue (d :: ds))

/-- Read one code unit of the target. -/
def substStep (caps : List (Nat × JsString)) (s : Subst) (c : CodeUnit) : Subst :=
  match s.pending with
  | some ds =>
    if isDigitUnit c then { s with pending := some (ds ++ [c]) }
    else if c = '$'.toNat then { out := flush caps s, pending := some [] }
    else { out := flush caps s ++ [c], pending := none }
  | none =>
    if c = '$'.toNat then { s with pending := some [] }
    else { s with out := s.out ++ [c] }

/-- Jest's `mapModuleName`: every `$n` of the target becomes capture `n`. -/
def mapModuleName (caps : List (Nat × JsString)) (target : JsString) : JsString :=
  flush caps (target.foldl (substStep caps) { out := [], pending := none })

/-- Jest's stub resolution over a `moduleNameMapper` table, up to the rewritten
name: the first entry whose pattern tests true rewrites the module name. The
outer `none` stands for a pattern the `RegExp` constructor rejects, `some none`
for a name no entry matches (it is left to ordinary resolution). The
`<rootDir>` tag of the target is kept as written. -/
def resolveStubWith : List (String × String) → JsString → Option (Option JsString)
  | [], _ => some none
  | (pattern, target) :: more, name =>
    match parseRegex (utf16 pattern) with
    | none => none
    | some r =>
      match exec r name with
      | some y => some (some (mapModuleName y.caps (utf16 target)))
      | none => resolveStubWith more name

/-- Stub resolution with the table of jest.config.js. -/
def resolveStub (name : JsString) : Option (Option JsString) :=
  resolveStubWith jestConfig.moduleNameMapper name

/-- Jest's lookup in the `transform` table (`_getTransformPath`): the first
entry whose pattern tests true on the file path. This is the selection only;
whether the file is then handed to the transformer is `shouldTransform`. Outer
`none`: a rejected pattern; `some none`: no entry applies. -/
def transformerWith : List (String × Transformer) → JsString → Option (Option Transformer)
  | [], _ => some none
  | (pattern, t) :: more, path =>
    match parseRegex (utf16 pattern) with
    | none => none
    | some r => if test r path then some (some t) else transformerWith more path

/-- Lookup in the `transform` table of jest.config.js. -/
def transformerFor (path : JsString) : Option (Option Transformer) :=
  transformerWith jestConfig.transform path

/-- Jest's default for `transformIgnorePatterns`, which is in force because
jest.config.js does not set that key: the `node_modules` segment and Yarn
Plug and Play files. (This is a constant of Jest, not of the repository.) -/
def defaultTransformIgnorePatterns : List String :=
  ["/node_modules/", "\\.pnp\\.[^\\/]+$"]

/-- The expression behind `shouldTransform`:
`new RegExp(transformIgnorePatterns.join('|'))`. -/
def transformIgnoreRegex : Option Regex :=
  parseRegex (joinPatterns (defaultTransformIgnorePatterns.map utf16))

/-- Jest's `shouldTransform`: the transform table is not empty and the path is
not matched by the ignore expression. -/
def shouldTransform (path : JsString) : Option Bool :=
  transformIgnoreRegex.map
    (fun r => !jestConfig.transform.isEmpty && !test r path)

/-- The transformer a file is actually handed to: the one the table selects,
provided `shouldTransform` holds. `some none`: the file is loaded as it is. -/
def transformFile (path : JsString) : Option (Option Transformer) :=
  match shouldTransform path with
  | none => none
  | some false => some none
  | some true => transformerFor path

/-- ECMAScript `GetSubstitution` for a replacement string used with a pattern
that has no capture group: `$$` is a dollar sign, `$&` the matched text,
`$` followed by a grave accent the text before the match, by an apostrophe the
text after it; any other dollar sign stands for itself. -/
def getSubstitution (matched before after : JsString) : JsString → JsString
  | [] => []
  | [c] => [c]
  | c :: d :: t =>
    if c = '$'.toNat then
      if d = '$'.toNat then '$'.toNat :: getSubstitution matched before after t
      else if d = '&'.toNat then matched ++ getSubstitution matched before after t
      else if d = '\x60'.toNat then before ++ getSubstitution matched before after t
      else if d = '\x27'.toNat then after ++ getSubstitution matched before after t
      else c :: getSubstitution matched before after (d :: t)
    else c :: getSubstitution matched before after (d :: t)

/-- The replacement `text.replace(/tag/g, rep)` for a literal `tag`: `seen` is
the text already passed (most recent first) and `skip` counts the code units of
an occurrence still to be dropped. -/
def replaceTag (tag rep : JsString) : JsString → Nat → JsString → JsString
  | _, _, [] => []
  | seen, skip + 1, c :: t => replaceTag tag rep (c :: seen) skip t
  | seen, 0, c :: t =>
    if tag.isPrefixOf (c :: t) then
      getSubstitution tag seen.reverse (t.drop (tag.length - 1)) rep ++
        replaceTag tag rep (c :: seen) (tag.length - 1) t
    else c :: replaceTag tag rep (c :: seen) 0 t

/-- Jest's `pattern.replace(/<rootDir>/g, rootDir)` on a path pattern: the root
directory is spliced in as pattern text, without escaping. -/
def replaceRootDir (rootDir pattern : JsString) : JsString :=
  replaceTag (utf16 "<rootDir>") rootDir [] 0 pattern

/-- The expression Jest tests candidate paths against:
`new RegExp(testPathIgnorePatterns.join('|'))` after the root directory has
been substituted. -/
def ignoreRegex (rootDir : JsString) : Option Regex :=
  parseRegex
    (joinPatterns (jestConfig.testPathIgnorePatterns.map
      (fun p => replaceRootDir rootDir (utf16 p))))

/-- Whether test discovery drops `path` for a project rooted at `rootDir`;
`none` when the expression is rejected or leaves the fragment. -/
def isTestPathIgnored (rootDir path : JsString) : Option Bool :=
  (ignoreRegex rootDir).map (fun r => test r path)

/-! ## Cache-Control directive lists -/

/-- Split at commas. -/
def splitCommas : List Char → List (List Char)
  | [] => [[]]
  | c :: t =>
    if c = ',' then [] :: splitCommas t
    else match splitCommas t with
      | [] => [[c]]
      | d :: ds => (c :: d) :: ds

/-- Strip optional whitespace (space, tab) around a list element. -/
def trimBlanks (s : List Char) : List Char :=
  let blank := fun (c : Char) => c = ' ' || c = '\t'
  ((s.dropWhile blank).reverse.dropWhile blank).reverse

/-- The directives of a Cache-Control field value: its comma-separated
elements, trimmed, empty elements dropped. -/
def directives (value : String) : List (List Char) :=
  ((splitCommas value.toList).map trimBlanks).filter (fun d => !d.isEmpty)

/-- Decimal value of a run of digit characters. -/
def decimalValue (ds : List Char) : Nat :=
  ds.foldl (fun n d => 10 * n + (d.toNat - 48)) 0

/-- The value of `max-age=<delta-seconds>` when the directive has that form. -/
def maxAgeOf (d : List Char) : Option Nat :=
  if "max-age=".toList.isPrefixOf d then
    let ds := d.drop 8
    if !ds.isEmpty && ds.all Char.isDigit then some (decimalValue ds) else none
  else none

/-- The max-age of a directive list: that of its first max-age directive. -/
def maxAge (ds : List (List Char)) : Option Nat :=
  ds.findSome? maxAgeOf

/-! ## Auxiliary definitions for the proofs -/

/-- The states a greedy repetition of a one-unit term reaches from index `p` on
input `s`, longest run first: one state per prefix of `s` accepted throughout. -/
def unitStates (ok : CodeUnit → Bool) (p : Nat) (caps : List (Nat × JsString)) :
    JsString → List MState
  | [] => [{ pos := p, rest := [], caps := caps }]
  | d :: t =>
    if ok d then unitStates ok (p + 1) caps t ++ [{ pos := p, rest := d :: t, caps := caps }]
    else [{ pos := p, rest := d :: t, caps := caps }]

/-- The alternative spelling out the code units `l`, followed by `r`. -/
def unitsThen (l : JsString) (r : Regex) : Regex :=
  l.foldr (fun c acc => Regex.seq (Regex.unit c) acc) r

/-- The parsed form of the `moduleNameMapper` pattern `^@/(.*)$`. -/
def aliasRegex : Regex :=
  Regex.group 0 (Regex.seq Regex.bol (unitsThen (utf16 "@/")
    (Regex.seq (Regex.group 1 (Regex.seq (Regex.star Regex.dot) Regex.empty))
      (Regex.seq Regex.eol Regex.empty))))

/-- The part `\.tsx?$` of the transform pattern. -/
def tsTail : Regex :=
  unitsThen (utf16 ".ts")
    (Regex.seq (Regex.opt (Regex.unit 'x'.toNat)) (Regex.seq Regex.eol Regex.empty))

/-- The parsed form of the transform pattern `^.+\.tsx?$`. -/
def tsRegex : Regex :=
  Regex.group 0 (Regex.seq Regex.bol (Regex.seq (Regex.plus Regex.dot) tsTail))

/-- The parsed form of the second default ignore pattern, `\.pnp\.[^\/]+$`. -/
def pnpRegex : Regex :=
  unitsThen (utf16 ".pnp.")
    (Regex.seq (Regex.plus (Regex.cls true ['/'.toNat])) (Regex.seq Regex.eol Regex.empty))

/-- The term a pattern character without syntactic role, or `.`, parses to. -/
def atomOf (c : CodeUnit) : Regex := if c = '.'.toNat then Regex.dot else Regex.unit c

/-- The alternative a run of such characters parses to. -/
def lits (l : JsString) : Regex := l.foldr (fun c acc => Regex.seq (atomOf c) acc) Regex.empty

/-- State `y` lies at or after `x` on the same input. -/
def Advances (x y : MState) : Prop :=
  x.pos ≤ y.pos ∧ y.pos + y.rest.length = x.pos + x.rest.length

/-! ## The matcher, clause by clause -/

theorem matchUnit_nil (ok : CodeUnit → Bool) (p : Nat) (caps : List (Nat × JsString)) :
    matchUnit ok { pos := p, rest := [], caps := caps } = [] := rfl

theorem matchUnit_cons (ok : CodeUnit → Bool) (p : Nat) (d : CodeUnit) (t : JsString)
    (caps : List (Nat × JsString)) :
    matchUnit ok { pos := p, rest := d :: t, caps := caps } =
      if ok d then [{ pos := p + 1, rest := t, caps := caps }] else [] := rfl

theorem matchL_empty (x : MState) : matchL Regex.empty x = [x] := by
  rw [matchL]

theorem matchL_unit (c : CodeUnit) : matchL (Regex.unit c) = matchUnit (fun d => decide (d = c)) := by
  funext x
  rw [matchL]

theorem matchL_dot : matchL Regex.dot = matchUnit (fun d => !isLineTerminator d) := by
  funext x
  rw [matchL]

theorem matchL_cls (neg : Bool) (ms : List CodeUnit) :
    matchL (Regex.cls neg ms) = matchUnit (classAccepts neg ms) := by
  funext x
  rw [matchL]

theorem matchL_bol (x : MState) : matchL Regex.bol x = if x.pos = 0 then [x] else [] := by
  rw [matchL]

theorem matchL_eol_nil (p : Nat) (caps : List (Nat × JsString)) :
    matchL Regex.eol { pos := p, rest := [], caps := caps } =
      [{ pos := p, rest := [], caps := caps }] := by
  rw [matchL]

theorem matchL_eol_cons (p : Nat) (d : CodeUnit) (t : JsString) (caps : List (Nat × JsString)) :
    matchL Regex.eol { pos := p, rest := d :: t, caps := caps } = [] := by
  rw [matchL]

theorem matchL_seq (a b : Regex) (x : MState) :
    matchL (Regex.seq a b) x = (matchL a x).flatMap (matchL b) := by
  rw [matchL]

theorem matchL_alt (a b : Regex) (x : MState) :
    matchL (Regex.alt a b) x = matchL a x ++ matchL b x := by
  rw [matchL]

theorem matchL_star (r : Regex) (x : MState) :
    matchL (Regex.star r) x = repeatL (matchL r) (x.rest.length + 1) x := by
  rw [matchL]

theorem matchL_plus (r : Regex) (x : MState) :
    matchL (Regex.plus r) x =
      (matchL r x).flatMap (fun y => repeatL (matchL r) (y.rest.length + 1) y) := by
  rw [matchL]

theorem matchL_opt (r : Regex) (x : MState) :
    matchL (Regex.opt r) x = (matchL r x).filter (fun y => decide (y.pos ≠ x.pos)) ++ [x] := by
  rw [matchL]

theorem matchL_group (i : Nat) (r : Regex) (x : MState) :
    matchL (Regex.group i r) x =
      (matchL r x).map
        (fun y => { y with caps := (i, x.rest.take (y.pos - x.pos)) :: y.caps }) := by
  rw [matchL]

theorem flatMap_matchL_empty (l : List MState) : l.flatMap (matchL Regex.empty) = l := by
  have h : matchL Regex.empty = fun x => [x] := funext matchL_empty
  rw [h]
  simp

theorem matchL_seq_empty (a : Regex) : matchL (Regex.seq a Regex.empty) = matchL a := by
  funext x
  rw [matchL_seq, flatMap_matchL_empty]

/-- A literal code unit in front of a pattern: the input must start with it. -/
theorem matchL_unit_seq_ne_nil (c : CodeUnit) (r : Regex) (q : Nat) (b : JsString)
    (caps : List (Nat × JsString)) :
    matchL (Regex.seq (Regex.unit c) r) { pos := q, rest := b, caps := caps } ≠ [] ↔
      ∃ t, b = c :: t ∧ matchL r { pos := q + 1, rest := t, caps := caps } ≠ [] := by
  rw [matchL_seq, matchL_unit]
  cases b with
  | nil => simp [matchUnit_nil]
  | cons d t =>
    by_cases hd : d = c
    · subst hd
      simp [matchUnit_cons]
    · simp [matchUnit_cons, hd]

/-- A run of literal code units in front of a pattern: the input must start
with the run. -/
theorem matchL_unitsThen_ne_nil (l : JsString) (r : Regex) :
    ∀ (q : Nat) (b : JsString) (caps : List (Nat × JsString)),
      matchL (unitsThen l r) { pos := q, rest := b, caps := caps } ≠ [] ↔
        ∃ t, b = l ++ t ∧ matchL r { pos := q + l.length, rest := t, caps := caps } ≠ [] := by
  induction l with
  | nil =>
    intro q b caps
    simp [unitsThen]
  | cons c l ih =>
    intro q b caps
    have hfold : unitsThen (c :: l) r = Regex.seq (Regex.unit c) (unitsThen l r) := rfl
    rw [hfold, matchL_unit_seq_ne_nil]
    constructor
    · rintro ⟨t, rfl, h⟩
      obtain ⟨t2, rfl, h2⟩ := (ih _ _ _).mp h
      refine ⟨t2, rfl, ?_⟩
      have e : q + (c :: l).length = q + 1 + l.length := by simp; omega
      rw [e]
      exact h2
    · rintro ⟨t, rfl, h⟩
      refine ⟨l ++ t, rfl, (ih _ _ _).mpr ⟨t, rfl, ?_⟩⟩
      have e : q + (c :: l).length = q + 1 + l.length := by simp; omega
      rw [← e]
      exact h

/-- A run of literal code units in front of a pattern that has matched: the
pattern goes on from the state behind the run. -/
theorem matchL_unitsThen (l : JsString) (r : Regex) :
    ∀ (q : Nat) (t : JsString) (caps : List (Nat × JsString)),
      matchL (unitsThen l r) { pos := q, rest := l ++ t, caps := caps } =
        matchL r { pos := q + l.length, rest := t, caps := caps } := by
  induction l with
  | nil => intro q t caps; rfl
  | cons c l ih =>
    intro q t caps
    have hfold : unitsThen (c :: l) r = Regex.seq (Regex.unit c) (unitsThen l r) := rfl
    have e : q + (c :: l).length = q + 1 + l.length := by simp; omega
    rw [hfold, matchL_seq, matchL_unit]
    simp only [List.cons_append, matchUnit_cons, decide_True, if_true, List.flatMap_cons,
      List.flatMap_nil, List.append_nil]
    rw [ih, e]

/-! ## Greedy repetition of a one-unit term -/

/-- With enough fuel, the greedy repetition of a one-unit term yields
`unitStates`. -/
theorem repeatL_matchUnit (ok : CodeUnit → Bool) (s : JsString) :
    ∀ (fuel p : Nat) (caps : List (Nat × JsString)), s.length < fuel →
      repeatL (matchUnit ok) fuel { pos := p, rest := s, caps := caps } =
        unitStates ok p caps s := by
  induction s with
  | nil =>
    intro fuel p caps h
    cases fuel with
    | zero => omega
    | succ f => simp [repeatL, matchUnit_nil, unitStates]
  | cons d t ih =>
    intro fuel p caps h
    cases fuel with
    | zero => simp at h
    | succ f =>
      have ht : t.length < f := by simpa using h
      cases hd : ok d
      · simp [repeatL, matchUnit_cons, unitStates, hd]
      · simp [repeatL, matchUnit_cons, unitStates, hd, ih f (p + 1) caps ht]

/-- The states of `unitStates` are the splits of the input after a prefix
accepted throughout. -/
theorem mem_unitStates (ok : CodeUnit → Bool) (s : JsString) :
    ∀ (p : Nat) (caps : List (Nat × JsString)) (y : MState),
      y ∈ unitStates ok p caps s ↔
        ∃ a b, s = a ++ b ∧ (∀ c ∈ a, ok c = true) ∧
          y = { pos := p + a.length, rest := b, caps := caps } := by
  induction s with
  | nil =>
    intro p caps y
    simp only [unitStates, List.mem_singleton]
    constructor
    · intro h
      exact ⟨[], [], rfl, by simp, by simpa using h⟩
    · rintro ⟨a, b, hab, -, hy⟩
      have h1 : a = [] ∧ b = [] := by simpa using hab.symm
      obtain ⟨rfl, rfl⟩ := h1
      simpa using hy
  | cons d t ih =>
    intro p caps y
    cases hd : ok d
    · simp only [unitStates, hd, Bool.false_eq_true, if_false, List.mem_singleton]
      constructor
      · intro h
        exact ⟨[], d :: t, rfl, by simp, by simpa using h⟩
      · rintro ⟨a, b, hab, ha, hy⟩
        cases a with
        | nil => simp at hab; subst hab; simpa using hy
        | cons a0 a1 =>
          simp at hab
          obtain ⟨rfl, -⟩ := hab
          have := ha d (by simp)
          simp [hd] at this
    · simp only [unitStates, hd, if_true, List.mem_append, List.mem_singleton, ih]
      constructor
      · rintro (⟨a, b, rfl, ha, rfl⟩ | h)
        · refine ⟨d :: a, b, rfl, ?_, ?_⟩
          · intro c hc
            rcases List.mem_cons.mp hc with rfl | hc
            · exact hd
            · exact ha c hc
          · simp; omega
        · exact ⟨[], d :: t, rfl, by simp, by simpa using h⟩
      · rintro ⟨a, b, hab, ha, hy⟩
        cases a with
        | nil =>
          right
          simp at hab; subst hab; simpa using hy
        | cons a0 a1 =>
          left
          simp at hab
          obtain ⟨rfl, rfl⟩ := hab
          refine ⟨a1, b, rfl, fun c hc => ha c (by simp [hc]), ?_⟩
          subst hy
          simp; omega

/-- On an input accepted throughout, the first state tried consumes it all. -/
theorem unitStates_head (ok : CodeUnit → Bool) (s : JsString) :
    ∀ (p : Nat) (caps : List (Nat × JsString)), (∀ c ∈ s, ok c = true) →
      ∃ tl, unitStates ok p caps s = { pos := p + s.length, rest := [], caps := caps } :: tl := by
  induction s with
  | nil => intro p caps _; exact ⟨[], by simp [unitStates]⟩
  | cons d t ih =>
    intro p caps h
    have hd : ok d = true := h d (by simp)
    obtain ⟨tl, htl⟩ := ih (p + 1) caps (fun c hc => h c (by simp [hc]))
    refine ⟨tl ++ [{ pos := p, rest := d :: t, caps := caps }], ?_⟩
    simp [unitStates, hd, htl]
    omega

/-- One or more repetitions of a one-unit term, then the end of the input: the
remaining input is not empty and accepted throughout. -/
theorem matchL_plus_unit_eol_ne_nil (r : Regex) (ok : CodeUnit → Bool)
    (hr : matchL r = matchUnit ok) (q : Nat) (b : JsString) (caps : List (Nat × JsString)) :
    matchL (Regex.seq (Regex.plus r) (Regex.seq Regex.eol Regex.empty))
        { pos := q, rest := b, caps := caps } ≠ [] ↔ b ≠ [] ∧ ∀ c ∈ b, ok c = true := by
  rw [matchL_seq, matchL_plus, hr, matchL_seq_empty]
  cases b with
  | nil => simp [matchUnit_nil]
  | cons d t =>
    cases hd : ok d
    · simp [matchUnit_cons, hd]
    · simp only [matchUnit_cons, hd, if_true, List.flatMap_cons, List.flatMap_nil,
        List.append_nil, repeatL_matchUnit ok t _ _ _ (Nat.lt_succ_self _), ne_eq,
        List.flatMap_eq_nil_iff, not_forall]
      constructor
      · rintro ⟨y, hy, hne⟩
        obtain ⟨a, b, rfl, ha, rfl⟩ := (mem_unitStates ok t _ _ y).mp hy
        cases b with
        | nil =>
          refine ⟨List.cons_ne_nil _ _, ?_⟩
          intro c hc
          rcases List.mem_cons.mp hc with rfl | hc
          · exact hd
          · exact ha c (by simpa using hc)
        | cons e b => exact absurd (matchL_eol_cons _ _ _ _) hne
      · rintro ⟨-, hall⟩
        refine ⟨{ pos := q + 1 + t.length, rest := [], caps := caps },
          (mem_unitStates ok t _ _ _).mpr
            ⟨t, [], by simp, fun c hc => hall c (by simp [hc]), rfl⟩, ?_⟩
        rw [matchL_eol_nil]
        exact List.cons_ne_nil _ _

/-! ## Fuel of the repetition -/

theorem advances_refl (x : MState) : Advances x x := ⟨Nat.le_refl _, rfl⟩

theorem advances_trans {x y z : MState} (h1 : Advances x y) (h2 : Advances y z) :
    Advances x z := ⟨Nat.le_trans h1.1 h2.1, h2.2.trans h1.2⟩

theorem matchUnit_advances (ok : CodeUnit → Bool) (x y : MState) (h : y ∈ matchUnit ok x) :
    Advances x y := by
  obtain ⟨p, rest, caps⟩ := x
  cases rest with
  | nil => simp [matchUnit_nil] at h
  | cons d t =>
    rw [matchUnit_cons] at h
    split at h
    · rw [List.mem_singleton] at h
      subst h
      exact ⟨Nat.le_succ _, by simp; omega⟩
    · simp at h

theorem repeatL_advances (m : MState → List MState)
    (hm : ∀ x y, y ∈ m x → Advances x y) :
    ∀ (fuel : Nat) (x y : MState), y ∈ repeatL m fuel x → Advances x y := by
  intro fuel
  induction fuel with
  | zero =>
    intro x y h
    simp only [repeatL, List.mem_singleton] at h
    subst h
    exact advances_refl _
  | succ f ih =>
    intro x y h
    simp only [repeatL, List.mem_append, List.mem_flatMap, List.mem_filter,
      List.mem_singleton] at h
    rcases h with ⟨z, ⟨hz, -⟩, hy⟩ | rfl
    · exact advances_trans (hm x z hz) (ih z y hy)
    · exact advances_refl _

/-- A match never moves backwards and keeps index and remaining input in step. -/
theorem matchL_advances (r : Regex) : ∀ (x y : MState), y ∈ matchL r x → Advances x y := by
  induction r with
  | empty =>
    intro x y h
    rw [matchL_empty, List.mem_singleton] at h
    subst h
    exact advances_refl _
  | unit c =>
    intro x y h
    rw [matchL_unit] at h
    exact matchUnit_advances _ x y h
  | dot =>
    intro x y h
    rw [matchL_dot] at h
    exact matchUnit_advances _ x y h
  | cls neg ms =>
    intro x y h
    rw [matchL_cls] at h
    exact matchUnit_advances _ x y h
  | bol =>
    intro x y h
    rw [matchL_bol] at h
    split at h
    · rw [List.mem_singleton] at h
      subst h
      exact advances_refl _
    · simp at h
  | eol =>
    rintro ⟨p, rest, caps⟩ y h
    cases rest with
    | nil =>
      rw [matchL_eol_nil, List.mem_singleton] at h
      subst h
      exact advances_refl _
    | cons d t => simp [matchL_eol_cons] at h
  | seq a b iha ihb =>
    intro x y h
    rw [matchL_seq, List.mem_flatMap] at h
    obtain ⟨z, hz, hy⟩ := h
    exact advances_trans (iha x z hz) (ihb z y hy)
  | alt a b iha ihb =>
    intro x y h
    rw [matchL_alt, List.mem_append] at h
    rcases h with h | h
    · exact iha x y h
    · exact ihb x y h
  | star r ih =>
    intro x y h
    rw [matchL_star] at h
    exact repeatL_advances _ ih _ x y h
  | plus r ih =>
    intro x y h
    rw [matchL_plus, List.mem_flatMap] at h
    obtain ⟨z, hz, hy⟩ := h
    exact advances_trans (ih x z hz) (repeatL_advances _ ih _ z y hy)
  | opt r ih =>
    intro x y h
    rw [matchL_opt, List.mem_append, List.mem_filter, List.mem_singleton] at h
    rcases h with ⟨h, -⟩ | rfl
    · exact ih x y h
    · exact advances_refl _
  | group i r ih =>
    intro x y h
    rw [matchL_group, List.mem_map] at h
    obtain ⟨z, hz, rfl⟩ := h
    exact ih x z hz

/-- Two amounts of fuel above the length of the remaining input agree. -/
theorem repeatL_fuel (m : MState → List MState) (hm : ∀ x y, y ∈ m x → Advances x y) :
    ∀ (n : Nat) (x : MState) (f1 f2 : Nat), x.rest.length ≤ n → x.rest.length < f1 →
      x.rest.length < f2 → repeatL m f1 x = repeatL m f2 x := by
  intro n
  induction n with
  | zero =>
    intro x f1 f2 hn h1 h2
    cases f1 with
    | zero => omega
    | succ a =>
      cases f2 with
      | zero => omega
      | succ b =>
        simp only [repeatL]
        congr 1
        apply List.flatMap_congr
        intro y hy
        obtain ⟨hy1, hy2⟩ := List.mem_filter.mp hy
        have hadv := hm x y hy1
        have hne : y.pos ≠ x.pos := by simpa using hy2
        have := hadv.1
        have := hadv.2
        omega
  | succ n ih =>
    intro x f1 f2 hn h1 h2
    cases f1 with
    | zero => omega
    | succ a =>
      cases f2 with
      | zero => omega
      | succ b =>
        simp only [repeatL]
        congr 1
        apply List.flatMap_congr
        intro y hy
        obtain ⟨hy1, hy2⟩ := List.mem_filter.mp hy
        have hadv := hm x y hy1
        have hne : y.pos ≠ x.pos := by simpa using hy2
        have h3 := hadv.1
        have h4 := hadv.2
        exact ih y a b (by omega) (by omega) (by omega)

/-- The fuel handed to the repetition never runs out: any amount above the
length of the remaining input gives the result of `Regex.star`. -/
theorem star_fuel_irrelevant (r : Regex) (x : MState) (fuel : Nat)
    (h : x.rest.length < fuel) : repeatL (matchL r) fuel x = matchL (Regex.star r) x := by
  rw [matchL_star]
  exact repeatL_fuel _ (matchL_advances r) x.rest.length x fuel _ (Nat.le_refl _) h
    (Nat.lt_succ_self _)

/-! ## The search loop and anchored patterns -/

/-- A pattern that matches only at index 0 is not found from a later index. -/
theorem execFrom_none (r : Regex) (hr : ∀ x : MState, x.pos ≠ 0 → matchL r x = []) :
    ∀ (l : JsString) (pos : Nat), pos ≠ 0 → execFrom r pos l = none := by
  intro l
  induction l with
  | nil => intro pos h; simp [execFrom, hr { pos := pos, rest := [], caps := [] } h]
  | cons c t ih =>
    intro pos h
    simp [execFrom, hr { pos := pos, rest := c :: t, caps := [] } h, ih (pos + 1)]

/-- For such a pattern the search reduces to the attempt at index 0. -/
theorem exec_anchored (r : Regex) (hr : ∀ x : MState, x.pos ≠ 0 → matchL r x = [])
    (l : JsString) : exec r l = (matchL r { pos := 0, rest := l, caps := [] }).head? := by
  cases l with
  | nil => simp [exec, execFrom]
  | cons c t =>
    simp only [exec, execFrom]
    cases h : (matchL r { pos := 0, rest := c :: t, caps := [] }).head? with
    | none => simpa using execFrom_none r hr t 1 (by simp)
    | some y => rfl

theorem anchored_group_bol (i : Nat) (r : Regex) (x : MState) (h : x.pos ≠ 0) :
    matchL (Regex.group i (Regex.seq Regex.bol r)) x = [] := by
  simp [matchL_group, matchL_seq, matchL_bol, h]

theorem head?_isSome_iff_ne_nil (l : List MState) : l.head?.isSome = true ↔ l ≠ [] := by
  cases l <;> simp

/-- The search succeeds exactly when the pattern matches at some index. -/
theorem execFrom_isSome_iff (r : Regex) (l : JsString) :
    ∀ (pos : Nat), (execFrom r pos l).isSome = true ↔
      ∃ pre suf, l = pre ++ suf ∧
        matchL r { pos := pos + pre.length, rest := suf, caps := [] } ≠ [] := by
  induction l with
  | nil =>
    intro pos
    simp only [execFrom, head?_isSome_iff_ne_nil]
    constructor
    · intro h
      exact ⟨[], [], rfl, by simpa using h⟩
    · rintro ⟨pre, suf, hl, h⟩
      have h1 : pre = [] ∧ suf = [] := by simpa using hl.symm
      obtain ⟨rfl, rfl⟩ := h1
      simpa using h
  | cons c t ih =>
    intro pos
    simp only [execFrom]
    cases hm : matchL r { pos := pos, rest := c :: t, caps := [] } with
    | nil =>
      simp only [List.head?_nil, ih]
      constructor
      · rintro ⟨pre, suf, rfl, h⟩
        refine ⟨c :: pre, suf, rfl, ?_⟩
        have e : pos + (c :: pre).length = pos + 1 + pre.length := by simp; omega
        rw [e]
        exact h
      · rintro ⟨pre, suf, hl, h⟩
        cases pre with
        | nil =>
          simp only [List.nil_append] at hl
          subst hl
          simp only [List.length_nil, Nat.add_zero] at h
          exact absurd hm h
        | cons d pre =>
          have h2 := List.cons.inj hl
          refine ⟨pre, suf, h2.2, ?_⟩
          have e : pos + (d :: pre).length = pos + 1 + pre.length := by simp; omega
          rw [← e]
          exact h
    | cons y ys =>
      simp only [List.head?_cons, Option.isSome_some, true_iff]
      refine ⟨[], c :: t, rfl, ?_⟩
      simp only [List.length_nil, Nat.add_zero, hm]
      exact List.cons_ne_nil _ _

/-- `test` holds exactly when the pattern matches at some index of the input. -/
theorem test_iff (r : Regex) (l : JsString) :
    test r l = true ↔
      ∃ pre suf, l = pre ++ suf ∧
        matchL r { pos := pre.length, rest := suf, caps := [] } ≠ [] := by
  have h := execFrom_isSome_iff r l 0
  simp only [Nat.zero_add] at h
  exact h

/-- An alternation at top level matches where either side does. -/
theorem matchL_group_alt_ne_nil (i : Nat) (a b : Regex) (x : MState) :
    matchL (Regex.group i (Regex.alt a b)) x ≠ [] ↔ matchL a x ≠ [] ∨ matchL b x ≠ [] := by
  rw [matchL_group, matchL_alt]
  simp only [ne_eq, List.map_eq_nil_iff, List.append_eq_nil, not_and_or]

/-! ## The path alias of `moduleNameMapper` -/

/-- The `moduleNameMapper` pattern of the source parses to `aliasRegex`. -/
theorem parse_alias : parseRegex (utf16 "^@/(.*)$") = some aliasRegex := by decide

theorem mapModuleName_alias (caps : List (Nat × JsString)) :
    mapModuleName caps (utf16 "<rootDir>/$1") = utf16 "<rootDir>/" ++ groupText caps 1 := by
  rfl

/-- Stub resolution in terms of the attempt at index 0. -/
theorem resolveStub_eq (name : JsString) :
    resolveStub name =
      match (matchL aliasRegex { pos := 0, rest := name, caps := [] }).head? with
      | some y => some (some (utf16 "<rootDir>/" ++ groupText y.caps 1))
      | none => some none := by
  have h := exec_anchored aliasRegex (anchored_group_bol 0 _) name
  simp only [resolveStub, jestConfig, resolveStubWith, parse_alias, h]
  cases (matchL aliasRegex { pos := 0, rest := name, caps := [] }).head? with
  | none => rfl
  | some y => exact congrArg (fun t => some (some t)) (mapModuleName_alias y.caps)

/-- The attempt at index 0 on a name that starts with `@/`. -/
theorem matchL_alias (s : JsString) :
    matchL aliasRegex { pos := 0, rest := utf16 "@/" ++ s, caps := [] } =
      (((unitStates (fun d => !isLineTerminator d) 2 [] s).map
          (fun y => ({ y with caps := (1, s.take (y.pos - 2)) :: y.caps } : MState))).flatMap
        (matchL Regex.eol)).map
          (fun y => { y with caps := (0, (utf16 "@/" ++ s).take (y.pos - 0)) :: y.caps }) := by
  have hlen : 0 + (utf16 "@/").length = 2 := rfl
  simp only [aliasRegex, matchL_group, matchL_seq, matchL_bol, if_true, List.flatMap_cons,
    List.flatMap_nil, List.append_nil, matchL_unitsThen, hlen, matchL_star, matchL_dot,
    repeatL_matchUnit _ s _ _ _ (Nat.lt_succ_self _), matchL_seq_empty, flatMap_matchL_empty]

theorem resolveStub_alias (s : JsString) (h : ∀ c ∈ s, isLineTerminator c = false) :
    resolveStub (utf16 "@/" ++ s) = some (some (utf16 "<rootDir>/" ++ s)) := by
  obtain ⟨tl, htl⟩ := unitStates_head (fun d => !isLineTerminator d) s 2 []
    (fun c hc => by simp [h c hc])
  rw [resolveStub_eq, matchL_alias, htl]
  simp [matchL_eol_nil, groupText, List.lookup]

theorem resolveStub_alias_line (s : JsString) (h : ∃ c ∈ s, isLineTerminator c = true) :
    resolveStub (utf16 "@/" ++ s) = some none := by
  have hnil : matchL aliasRegex { pos := 0, rest := utf16 "@/" ++ s, caps := [] } = [] := by
    rw [matchL_alias]
    simp only [List.map_eq_nil_iff, List.flatMap_eq_nil_iff, List.mem_map]
    rintro y ⟨z, hz, rfl⟩
    obtain ⟨a, b, hab, ha, rfl⟩ := (mem_unitStates _ s 2 [] z).mp hz
    cases b with
    | nil =>
      obtain ⟨c, hc, hct⟩ := h
      have hca : c ∈ a := by simpa [hab] using hc
      have := ha c hca
      simp [hct] at this
    | cons d t => simp [matchL_eol_cons]
  rw [resolveStub_eq, hnil]
  rfl

theorem resolveStub_other (name : JsString) (h : ¬ utf16 "@/" <+: name) :
    resolveStub name = some none := by
  have hnil : matchL aliasRegex { pos := 0, rest := name, caps := [] } = [] := by
    by_contra hne
    have h1 : matchL (unitsThen (utf16 "@/")
        (Regex.seq (Regex.group 1 (Regex.seq (Regex.star Regex.dot) Regex.empty))
          (Regex.seq Regex.eol Regex.empty))) { pos := 0, rest := name, caps := [] } ≠ [] := by
      intro h0
      apply hne
      simp [aliasRegex, matchL_group, matchL_seq, matchL_bol, h0]
    obtain ⟨t, ht, -⟩ := (matchL_unitsThen_ne_nil _ _ _ _ _).mp h1
    exact h ⟨t, ht.symm⟩
  rw [resolveStub_eq, hnil]
  rfl

/-! ## The transform pattern and the default ignore patterns -/

/-- The transform pattern of the source parses to `tsRegex`. -/
theorem parse_ts : parseRegex (utf16 "^.+\\.tsx?$") = some tsRegex := by decide

theorem matchL_optx_eol_ne_nil (q : Nat) (b : JsString) (caps : List (Nat × JsString)) :
    matchL (Regex.seq (Regex.opt (Regex.unit 'x'.toNat)) (Regex.seq Regex.eol Regex.empty))
        { pos := q, rest := b, caps := caps } ≠ [] ↔ b = [] ∨ b = ['x'.toNat] := by
  rw [matchL_seq, matchL_opt, matchL_unit, matchL_seq_empty]
  rcases b with _ | ⟨d, _ | ⟨e, t⟩⟩
  · simp [matchUnit_nil, matchL_eol_nil]
  · by_cases hd : d = 'x'.toNat
    · subst hd
      simp [matchUnit_cons, matchL_eol_nil, matchL_eol_cons]
    · have hd2 : ¬ d = 120 := hd
      simp [matchUnit_cons, matchL_eol_cons, hd2]
  · by_cases hd : d = 'x'.toNat
    · subst hd
      simp [matchUnit_cons, matchL_eol_cons]
    · have hd2 : ¬ d = 120 := hd
      simp [matchUnit_cons, matchL_eol_cons, hd2]

theorem matchL_tsTail_ne_nil (q : Nat) (b : JsString) (caps : List (Nat × JsString)) :
    matchL tsTail { pos := q, rest := b, caps := caps } ≠ [] ↔
      b = utf16 ".ts" ∨ b = utf16 ".tsx" := by
  simp only [tsTail, matchL_unitsThen_ne_nil, matchL_optx_eol_ne_nil]
  constructor
  · rintro ⟨t, rfl, h | h⟩
    · left; rw [h]; rfl
    · right; rw [h]; rfl
  · rintro (h | h)
    · exact ⟨[], h, Or.inl rfl⟩
    · exact ⟨['x'.toNat], h, Or.inr rfl⟩

theorem matchL_tsRegex_ne_nil (path : JsString) :
    matchL tsRegex { pos := 0, rest := path, caps := [] } ≠ [] ↔
      ∃ p, p ≠ [] ∧ (∀ c ∈ p, isLineTerminator c = false) ∧
        (path = p ++ utf16 ".ts" ∨ path = p ++ utf16 ".tsx") := by
  cases path with
  | nil =>
    have hnil : matchL tsRegex { pos := 0, rest := [], caps := [] } = [] := by
      simp [tsRegex, matchL_group, matchL_seq, matchL_bol, matchL_plus, matchL_dot,
        matchUnit_nil]
    simp only [hnil, ne_eq, not_true_eq_false, false_iff, not_exists, not_and]
    intro p hp _ hpath
    cases p with
    | nil => exact hp rfl
    | cons p0 a => rcases hpath with h | h <;> simp at h
  | cons d t =>
    cases hd : isLineTerminator d
    · have hplus : matchL (Regex.plus Regex.dot) { pos := 0, rest := d :: t, caps := [] } =
          unitStates (fun d => !isLineTerminator d) 1 [] t := by
        simp [matchL_plus, matchL_dot, matchUnit_cons, hd, repeatL_matchUnit]
      simp only [tsRegex, matchL_group, matchL_seq, matchL_bol, if_true, List.flatMap_cons,
        List.flatMap_nil, List.append_nil, hplus, ne_eq, List.map_eq_nil_iff,
        List.flatMap_eq_nil_iff, not_forall]
      constructor
      · rintro ⟨y, hy, hne⟩
        obtain ⟨a, b, rfl, ha, rfl⟩ := (mem_unitStates _ t 1 [] y).mp hy
        have hb := (matchL_tsTail_ne_nil _ b []).mp hne
        refine ⟨d :: a, by simp, ?_, ?_⟩
        · intro c hc
          rcases List.mem_cons.mp hc with rfl | hc
          · exact hd
          · simpa using ha c hc
        · rcases hb with rfl | rfl
          · left; rfl
          · right; rfl
      · rintro ⟨p, hp, hfree, hpath⟩
        cases p with
        | nil => exact absurd rfl hp
        | cons p0 a =>
          have hsplit : ∃ b, t = a ++ b ∧ (b = utf16 ".ts" ∨ b = utf16 ".tsx") := by
            rcases hpath with h | h
            · exact ⟨_, (List.cons.inj h).2, Or.inl rfl⟩
            · exact ⟨_, (List.cons.inj h).2, Or.inr rfl⟩
          obtain ⟨b, rfl, hb⟩ := hsplit
          refine ⟨{ pos := 1 + a.length, rest := b, caps := [] },
            (mem_unitStates _ _ 1 [] _).mpr
              ⟨a, b, rfl, fun c hc => by simp [hfree c (by simp [hc])], rfl⟩, ?_⟩
          exact (matchL_tsTail_ne_nil _ b []).mpr hb
    · have hnil : matchL tsRegex { pos := 0, rest := d :: t, caps := [] } = [] := by
        simp [tsRegex, matchL_group, matchL_seq, matchL_bol, matchL_plus, matchL_dot,
          matchUnit_cons, hd]
      simp only [hnil, ne_eq, not_true_eq_false, false_iff, not_exists, not_and]
      intro p hp hfree hpath
      cases p with
      | nil => exact hp rfl
      | cons p0 a =>
        have h0 : d = p0 := by
          rcases hpath with h | h <;> exact (List.cons.inj h).1
        have := hfree p0 (by simp)
        rw [← h0, hd] at this
        cases this

/-- The paths the transform pattern accepts. -/
theorem test_tsRegex (path : JsString) :
    test tsRegex path = true ↔
      ∃ p, p ≠ [] ∧ (∀ c ∈ p, isLineTerminator c = false) ∧
        (path = p ++ utf16 ".ts" ∨ path = p ++ utf16 ".tsx") := by
  rw [← matchL_tsRegex_ne_nil, test, exec_anchored tsRegex (anchored_group_bol 0 _)]
  cases matchL tsRegex { pos := 0, rest := path, caps := [] } <;> simp

/-- The lookup in the transform table of the source. -/
theorem transformerFor_eq (path : JsString) :
    transformerFor path =
      if test tsRegex path then
        some (some { name := "ts-jest",
                     tsconfig := { jsx := "react-jsx", esModuleInterop := true,
                                   allowSyntheticDefaultImports := true } })
      else some none := by
  simp only [transformerFor, jestConfig, transformerWith, parse_ts]

/-- The default ignore patterns parse to an alternation of the `node_modules`
segment and `pnpRegex`. -/
theorem parse_transformIgnore :
    transformIgnoreRegex =
      some (Regex.group 0 (Regex.alt (unitsThen (utf16 "/node_modules/") Regex.empty)
        pnpRegex)) := by
  decide

theorem matchL_pnpRegex_ne_nil (q : Nat) (b : JsString) (caps : List (Nat × JsString)) :
    matchL pnpRegex { pos := q, rest := b, caps := caps } ≠ [] ↔
      ∃ t, b = utf16 ".pnp." ++ t ∧ t ≠ [] ∧ '/'.toNat ∉ t := by
  simp only [pnpRegex, matchL_unitsThen_ne_nil,
    matchL_plus_unit_eol_ne_nil _ _ (matchL_cls true ['/'.toNat])]
  have hacc : ∀ t : JsString,
      (∀ c ∈ t, classAccepts true ['/'.toNat] c = true) ↔ '/'.toNat ∉ t := by
    intro t
    constructor
    · intro h hmem
      have := h _ hmem
      simp [classAccepts] at this
    · intro h c hc
      have hne : ¬ c = 47 := by
        intro e
        subst e
        exact h hc
      simp [classAccepts, hne]
  simp only [hacc]

/-- The paths the default ignore expression matches. -/
theorem shouldTransform_eq_false_iff (path : JsString) :
    shouldTransform path = some false ↔
      (utf16 "/node_modules/" <:+: path ∨
        ∃ a b, path = a ++ utf16 ".pnp." ++ b ∧ b ≠ [] ∧ '/'.toNat ∉ b) := by
  have hne : jestConfig.transform.isEmpty = false := rfl
  simp only [shouldTransform, parse_transformIgnore, Option.map_some', hne, Bool.not_false,
    Bool.true_and, Option.some.injEq, Bool.not_eq_false', test_iff, matchL_group_alt_ne_nil,
    matchL_pnpRegex_ne_nil, matchL_unitsThen_ne_nil]
  constructor
  · rintro ⟨pre, suf, rfl, ⟨t, rfl, -⟩ | ⟨t, rfl, ht, hs⟩⟩
    · exact Or.inl ⟨pre, t, by simp⟩
    · exact Or.inr ⟨pre, t, by simp, ht, hs⟩
  · rintro (⟨pre, post, rfl⟩ | ⟨a, b, rfl, hb, hs⟩)
    · refine ⟨pre, utf16 "/node_modules/" ++ post, by simp, Or.inl ⟨post, rfl, ?_⟩⟩
      rw [matchL_empty]
      exact List.cons_ne_nil _ _
    · exact ⟨a, utf16 ".pnp." ++ b, by simp, Or.inr ⟨b, rfl, hb, hs⟩⟩

theorem shouldTransform_cases (path : JsString) :
    shouldTransform path = some false ∨ shouldTransform path = some true := by
  simp only [shouldTransform, parse_transformIgnore, Option.map_some', Option.some.injEq]
  cases (!jestConfig.transform.isEmpty && !test _ path) <;> simp

/-! ## Patterns made of plain characters, and the exclusion expression -/

theorem step_plain (s : PState) (c : CodeUnit) (hk : s.cls = none) (hs : s.esc = false)
    (hc : isSyntaxChar c = false ∨ c = '.'.toNat) : step s c = some (pushTerm s (atomOf c)) := by
  rcases hc with hc | rfl
  · simp [isSyntaxChar] at hc
    simp [step, hk, hs, atomOf, hc]
  · simp [step, hk, hs, atomOf]

theorem parseLoop_plain (l : JsString) :
    ∀ (more : JsString) (s : PState), s.cls = none → s.esc = false →
      (∀ c ∈ l, isSyntaxChar c = false ∨ c = '.'.toNat) →
      parseLoop (l ++ more) s =
        parseLoop more
          { s with top := { s.top with terms := (l.map atomOf).reverse ++ s.top.terms } } := by
  induction l with
  | nil => intro more s _ _ _; rfl
  | cons c t ih =>
    intro more s hk hs hl
    have hc := hl c (by simp)
    have h1 : parseLoop (c :: t ++ more) s = parseLoop (t ++ more) (pushTerm s (atomOf c)) := by
      show (match step s c with
        | some s1 => parseLoop (t ++ more) s1
        | none => none) = _
      rw [step_plain s c hk hs hc]
    rw [h1, ih more (pushTerm s (atomOf c)) hk rfl (fun d hd => hl d (by simp [hd]))]
    simp [pushTerm, hs]

theorem mkSeq_reverse_atoms (l : JsString) : mkSeq ((l.map atomOf).reverse) = lits l := by
  simp [mkSeq, lits, List.foldl_reverse, List.foldr_map]

/-- Two runs of plain characters around a bar parse to an alternation. -/
theorem parse_alt_plain (l1 l2 : JsString)
    (h1 : ∀ c ∈ l1, isSyntaxChar c = false ∨ c = '.'.toNat)
    (h2 : ∀ c ∈ l2, isSyntaxChar c = false ∨ c = '.'.toNat) :
    parseRegex (l1 ++ '|'.toNat :: l2) = some (Regex.group 0 (Regex.alt (lits l1) (lits l2))) := by
  have e2 := parseLoop_plain l2 []
    { top := { idx := 0, alts := [lits l1], terms := [] }, stack := [], groups := 0,
      cls := none, esc := false } rfl rfl h2
  simp only [List.append_nil] at e2
  simp only [parseRegex, parseLoop_plain l1 ('|'.toNat :: l2) initPState rfl rfl h1, parseLoop]
  simp [step, initPState, e2, parseLoop, closeFrame, mkSeq_reverse_atoms]

/-- After a run of plain characters has matched itself, the rest of the pattern
goes on from the state behind it. -/
theorem matchL_lits_append (l : JsString)
    (hl : ∀ c ∈ l, isSyntaxChar c = false ∨ c = '.'.toNat) (m : JsString) :
    ∀ (p : Nat) (rest : JsString) (caps : List (Nat × JsString)),
      matchL (lits (l ++ m)) { pos := p, rest := l ++ rest, caps := caps } =
        matchL (lits m) { pos := p + l.length, rest := rest, caps := caps } := by
  induction l with
  | nil => intro p rest caps; rfl
  | cons c t ih =>
    intro p rest caps
    have ht := ih (fun d hd => hl d (by simp [hd])) (p + 1) rest caps
    have hlen : p + 1 + t.length = p + (c :: t).length := by simp; omega
    show matchL (Regex.seq (atomOf c) (lits (t ++ m)))
      { pos := p, rest := c :: (t ++ rest), caps := caps } = _
    rw [matchL_seq]
    by_cases hc : c = '.'.toNat
    · subst hc
      have hatom : atomOf '.'.toNat = Regex.dot := rfl
      have hdot : (!isLineTerminator '.'.toNat) = true := by decide
      rw [hatom, matchL_dot, matchUnit_cons, hdot]
      simp only [if_true, List.flatMap_cons, List.flatMap_nil, List.append_nil]
      rw [ht, hlen]
    · have hatom : atomOf c = Regex.unit c := if_neg hc
      rw [hatom, matchL_unit, matchUnit_cons]
      simp only [decide_True, if_true, List.flatMap_cons, List.flatMap_nil, List.append_nil]
      rw [ht, hlen]

/-- A run of plain characters, read as a pattern, matches itself. -/
theorem matchL_lits (l : JsString) (hl : ∀ c ∈ l, isSyntaxChar c = false ∨ c = '.'.toNat)
    (p : Nat) (post : JsString) (caps : List (Nat × JsString)) :
    matchL (lits l) { pos := p, rest := l ++ post, caps := caps } =
      [{ pos := p + l.length, rest := post, caps := caps }] := by
  have h := matchL_lits_append l hl [] p post caps
  rw [List.append_nil] at h
  rw [h]
  exact matchL_empty _

/-- A replacement text without a dollar sign is inserted as it is. -/
theorem getSubstitution_plain (matched before after : JsString) (rep : JsString)
    (h : '$'.toNat ∉ rep) : getSubstitution matched before after rep = rep := by
  induction rep with
  | nil => rfl
  | cons c t ih =>
    have hc : ¬ c = '$'.toNat := by
      intro e
      subst e
      exact h (List.mem_cons_self _ _)
    have ht := ih (fun hm => h (List.mem_cons_of_mem _ hm))
    cases t with
    | nil => rfl
    | cons d t2 =>
      rw [getSubstitution, if_neg hc, ht]

theorem replaceRootDir_modules (rootDir : JsString) (h : '$'.toNat ∉ rootDir) :
    replaceRootDir rootDir (utf16 "<rootDir>/node_modules/") =
      rootDir ++ utf16 "/node_modules/" := by
  have e : replaceRootDir rootDir (utf16 "<rootDir>/node_modules/") =
      getSubstitution (utf16 "<rootDir>") [] (utf16 "/node_modules/") rootDir ++
        utf16 "/node_modules/" := rfl
  rw [e, getSubstitution_plain _ _ _ _ h]

theorem replaceRootDir_next (rootDir : JsString) (h : '$'.toNat ∉ rootDir) :
    replaceRootDir rootDir (utf16 "<rootDir>/.next/") = rootDir ++ utf16 "/.next/" := by
  have e : replaceRootDir rootDir (utf16 "<rootDir>/.next/") =
      getSubstitution (utf16 "<rootDir>") [] (utf16 "/.next/") rootDir ++ utf16 "/.next/" := rfl
  rw [e, getSubstitution_plain _ _ _ _ h]

/-- The exclusion expression for a root directory made of plain characters. -/
theorem ignoreRegex_plain (rootDir : JsString)
    (h : ∀ c ∈ rootDir, isSyntaxChar c = false ∨ c = '.'.toNat) :
    ignoreRegex rootDir = some (Regex.group 0 (Regex.alt
      (lits (rootDir ++ utf16 "/node_modules/")) (lits (rootDir ++ utf16 "/.next/")))) := by
  have hd : '$'.toNat ∉ rootDir := by
    intro hmem
    rcases h _ hmem with h1 | h1
    · exact absurd h1 (by decide)
    · exact absurd h1 (by decide)
  have hm : ∀ c ∈ rootDir ++ utf16 "/node_modules/", isSyntaxChar c = false ∨ c = '.'.toNat := by
    intro c hc
    rcases List.mem_append.mp hc with hc | hc
    · exact h c hc
    · exact (by decide : ∀ c ∈ utf16 "/node_modules/",
        isSyntaxChar c = false ∨ c = '.'.toNat) c hc
  have hn : ∀ c ∈ rootDir ++ utf16 "/.next/", isSyntaxChar c = false ∨ c = '.'.toNat := by
    intro c hc
    rcases List.mem_append.mp hc with hc | hc
    · exact h c hc
    · exact (by decide : ∀ c ∈ utf16 "/.next/", isSyntaxChar c = false ∨ c = '.'.toNat) c hc
  have e := parse_alt_plain _ _ hm hn
  have hj : ignoreRegex rootDir =
      parseRegex (replaceRootDir rootDir (utf16 "<rootDir>/node_modules/") ++
        '|'.toNat :: replaceRootDir rootDir (utf16 "<rootDir>/.next/")) := rfl
  rw [hj, replaceRootDir_modules _ hd, replaceRootDir_next _ hd]
  exact e

/-- Under such a root directory, a path containing the root followed by
`/node_modules/` or `/.next/` is dropped. -/
theorem isTestPathIgnored_of_contains (rootDir path : JsString)
    (hroot : ∀ c ∈ rootDir, isSyntaxChar c = false ∨ c = '.'.toNat)
    (hpath : (rootDir ++ utf16 "/node_modules/") <:+: path ∨
      (rootDir ++ utf16 "/.next/") <:+: path) :
    isTestPathIgnored rootDir path = some true := by
  have hm : ∀ c ∈ rootDir ++ utf16 "/node_modules/", isSyntaxChar c = false ∨ c = '.'.toNat := by
    intro c hc
    rcases List.mem_append.mp hc with hc | hc
    · exact hroot c hc
    · exact (by decide : ∀ c ∈ utf16 "/node_modules/",
        isSyntaxChar c = false ∨ c = '.'.toNat) c hc
  have hn : ∀ c ∈ rootDir ++ utf16 "/.next/", isSyntaxChar c = false ∨ c = '.'.toNat := by
    intro c hc
    rcases List.mem_append.mp hc with hc | hc
    · exact hroot c hc
    · exact (by decide : ∀ c ∈ utf16 "/.next/", isSyntaxChar c = false ∨ c = '.'.toNat) c hc
  simp only [isTestPathIgnored, ignoreRegex_plain rootDir hroot, Option.map_some']
  congr 1
  rw [test_iff]
  rcases hpath with ⟨pre, post, rfl⟩ | ⟨pre, post, rfl⟩
  · refine ⟨pre, (rootDir ++ utf16 "/node_modules/") ++ post, by simp, ?_⟩
    rw [matchL_group_alt_ne_nil, matchL_lits _ hm]
    exact Or.inl (List.cons_ne_nil _ _)
  · refine ⟨pre, (rootDir ++ utf16 "/.next/") ++ post, by simp, ?_⟩
    rw [matchL_group_alt_ne_nil, matchL_lits _ hn]
    exact Or.inr (List.cons_ne_nil _ _)

/-- The `.` of `<rootDir>/.next/` accepts any code unit but a line terminator. -/
theorem isTestPathIgnored_wildcard (rootDir pre post : JsString) (x : CodeUnit)
    (hroot : ∀ c ∈ rootDir, isSyntaxChar c = false ∨ c = '.'.toNat)
    (hx : isLineTerminator x = false) :
    isTestPathIgnored rootDir (pre ++ (rootDir ++ '/'.toNat :: x :: utf16 "next/") ++ post) =
      some true := by
  have hr : ∀ c ∈ rootDir ++ ['/'.toNat], isSyntaxChar c = false ∨ c = '.'.toNat := by
    intro c hc
    rcases List.mem_append.mp hc with hc | hc
    · exact hroot c hc
    · exact (by decide : ∀ c ∈ ['/'.toNat], isSyntaxChar c = false ∨ c = '.'.toNat) c hc
  have hn : ∀ c ∈ utf16 "next/", isSyntaxChar c = false ∨ c = '.'.toNat := by decide
  simp only [isTestPathIgnored, ignoreRegex_plain rootDir hroot, Option.map_some']
  congr 1
  rw [test_iff]
  refine ⟨pre, (rootDir ++ ['/'.toNat]) ++ (x :: (utf16 "next/" ++ post)), by simp, ?_⟩
  rw [matchL_group_alt_ne_nil]
  right
  have e1 : rootDir ++ utf16 "/.next/" = (rootDir ++ ['/'.toNat]) ++ '.'.toNat :: utf16 "next/" := by
    rw [List.append_assoc]
    rfl
  rw [e1, matchL_lits_append _ hr]
  have hfold : lits ('.'.toNat :: utf16 "next/") = Regex.seq Regex.dot (lits (utf16 "next/")) := rfl
  rw [hfold, matchL_seq, matchL_dot, matchUnit_cons, hx]
  simp only [Bool.not_false, if_true, List.flatMap_cons, List.flatMap_nil, List.append_nil]
  rw [matchL_lits _ hn]
  exact List.cons_ne_nil _ _

/-- The wildcard takes one code unit, not one character: a character outside
the basic plane is two code units, so `/repo/<U+1F600>next/a.test.ts` is not
matched by `/repo/.next/` and the test file is kept. -/
theorem dot_takes_one_code_unit :
    encodeChar (Char.ofNat 128512) = [55357, 56832] ∧
      isTestPathIgnored (utf16 "/repo")
        (utf16 "/repo/" ++ encodeChar (Char.ofNat 128512) ++ utf16 "next/a.test.ts") =
          some false := by
  decide

/-! ## The claims -/

/-- C1: every call of the Next.js header provider `headers()` delivers (through
the promise an `async` member returns) a sequence of exactly one rule, whose
source is `/api/assets` and whose headers are exactly one pair, with key
`Cache-Control` and value `public, max-age=31536000, immutable`. -/
theorem headers_single_cache_rule (ctx : CallContext) :
    ∃ rule h, nextConfig.headers ctx = Returned.deferred (Promise.fulfilled [rule]) ∧
      rule.source = "/api/assets" ∧ rule.headers = [h] ∧
      h.key = "Cache-Control" ∧ h.value = "public, max-age=31536000, immutable" :=
  ⟨_, _, rfl, rfl, rfl, rfl, rfl⟩

/-- C2: the Cache-Control value served for `/api/assets`, read as a
comma-separated directive list, contains `public` and `immutable`, and its
max-age is the number of seconds of a 365-day year, 365 * 24 * 60 * 60 = 31536000. -/
theorem cache_control_one_year_immutable (ctx : CallContext) :
    ∃ rule h, nextConfig.headers ctx = Returned.deferred (Promise.fulfilled [rule]) ∧
      rule.source = "/api/assets" ∧ rule.headers = [h] ∧ h.key = "Cache-Control" ∧
      "public".toList ∈ directives h.value ∧
      "immutable".toList ∈ directives h.value ∧
      maxAge (directives h.value) = some (365 * 24 * 60 * 60) ∧
      365 * 24 * 60 * 60 = 31536000 := by
  refine ⟨_, _, rfl, rfl, rfl, rfl, ?_, ?_, ?_, ?_⟩
  · decide
  · decide
  · decide
  · decide

/-- C3: the Next.js configuration has output mode `standalone`, and its
`serverExternalPackages` list denotes exactly the set of `pg` and `adm-zip`:
both are members, nothing else is, and no name is repeated. -/
theorem next_output_and_external_packages :
    nextConfig.output = "standalone" ∧
      (∀ p : String, p ∈ nextConfig.serverExternalPackages ↔ p = "pg" ∨ p = "adm-zip") ∧
      nextConfig.serverExternalPackages.Nodup := by
  refine ⟨rfl, ?_, ?_⟩
  · intro p
    simp [nextConfig]
  · decide

/-- C4 as stated fails: the module name `@/a<LF>b` starts with `@/`, yet the
alias pattern does not match it and it is left unrewritten. -/
theorem alias_line_terminator_unmatched :
    resolveStub (utf16 "@/" ++ utf16 "a\nb") = some none ∧
      resolveStub (utf16 "@/" ++ utf16 "a\nb") ≠
        some (some (utf16 "<rootDir>/" ++ utf16 "a\nb")) := by
  decide

/-- C4 (amended): for every string `s` without a line terminator the module
name `@/s` matches the alias pattern and is rewritten to `<rootDir>/s`, the
remainder unchanged; when `s` holds a line terminator `@/s` does not match; and
every module name that does not start with `@/` does not match and is left
unrewritten. -/
theorem alias_rewrite (s name : JsString) :
    ((∀ c ∈ s, isLineTerminator c = false) →
        resolveStub (utf16 "@/" ++ s) = some (some (utf16 "<rootDir>/" ++ s))) ∧
      ((∃ c ∈ s, isLineTerminator c = true) → resolveStub (utf16 "@/" ++ s) = some none) ∧
      (¬ utf16 "@/" <+: name → resolveStub name = some none) :=
  ⟨resolveStub_alias s, resolveStub_alias_line s, resolveStub_other name⟩

/-- Instance of `alias_rewrite`: `@/lib/db` is rewritten to `<rootDir>/lib/db`
and `./lib/db` is left alone. -/
theorem alias_rewrite_witness :
    resolveStub (utf16 "@/lib/db") = some (some (utf16 "<rootDir>/lib/db")) ∧
      resolveStub (utf16 "./lib/db") = some none :=
  ⟨(alias_rewrite (utf16 "lib/db") (utf16 "./lib/db")).1 (by decide),
    (alias_rewrite (utf16 "lib/db") (utf16 "./lib/db")).2.2 (by decide)⟩

/-- C5 as stated fails twice over: the path `a<LF>b.ts` ends with `.ts` after a
non-empty stem, yet the transform pattern does not match it; and the path
`/repo/node_modules/pkg/a.ts` is matched by the pattern, yet it is not handed
to `ts-jest`, because Jest's default `transformIgnorePatterns` stay in force. -/
theorem transform_not_sent :
    utf16 "a\nb.ts" = utf16 "a\nb" ++ utf16 ".ts" ∧ utf16 "a\nb" ≠ [] ∧
      transformerFor (utf16 "a\nb.ts") = some none ∧
      transformFile (utf16 "a\nb.ts") = some none ∧
      transformerFor (utf16 "/repo/node_modules/pkg/a.ts") ≠ some none ∧
      transformFile (utf16 "/repo/node_modules/pkg/a.ts") = some none := by
  decide

/-- C5 (amended): the transform table has the single entry `ts-jest`, configured
with jsx `react-jsx`, esModuleInterop and allowSyntheticDefaultImports. Its
pattern matches a path, and so selects `ts-jest` for it, exactly when the path
is a non-empty stem without line terminators followed by `.ts` or `.tsx`. A
path is handed to `ts-jest` exactly when it is selected and Jest's default
ignore patterns, which the configuration leaves in force, do not match it: it
does not contain `/node_modules/`, nor `.pnp.` followed by one or more
characters none of which is `/`. Any other path is handed to no transformer. -/
theorem transform_selection (path : JsString) :
    ∃ t : Transformer, jestConfig.transform.map Prod.snd = [t] ∧
      t.name = "ts-jest" ∧ t.tsconfig.jsx = "react-jsx" ∧
      t.tsconfig.esModuleInterop = true ∧ t.tsconfig.allowSyntheticDefaultImports = true ∧
      (transformerFor path = some (some t) ↔
        ∃ p, p ≠ [] ∧ (∀ c ∈ p, isLineTerminator c = false) ∧
          (path = p ++ utf16 ".ts" ∨ path = p ++ utf16 ".tsx")) ∧
      (transformFile path = some (some t) ↔
        (∃ p, p ≠ [] ∧ (∀ c ∈ p, isLineTerminator c = false) ∧
          (path = p ++ utf16 ".ts" ∨ path = p ++ utf16 ".tsx")) ∧
        ¬ utf16 "/node_modules/" <:+: path ∧
        ¬ ∃ a b, path = a ++ utf16 ".pnp." ++ b ∧ b ≠ [] ∧ '/'.toNat ∉ b) ∧
      (transformFile path = some (some t) ∨ transformFile path = some none) := by
  have hlook : transformerFor path = some (some
      { name := "ts-jest",
        tsconfig := { jsx := "react-jsx", esModuleInterop := true,
                      allowSyntheticDefaultImports := true } }) ↔
      ∃ p, p ≠ [] ∧ (∀ c ∈ p, isLineTerminator c = false) ∧
        (path = p ++ utf16 ".ts" ∨ path = p ++ utf16 ".tsx") := by
    rw [← test_tsRegex, transformerFor_eq]
    cases test tsRegex path <;> simp
  have hcases : transformerFor path = some (some
      { name := "ts-jest",
        tsconfig := { jsx := "react-jsx", esModuleInterop := true,
                      allowSyntheticDefaultImports := true } }) ∨
      transformerFor path = some none := by
    rw [transformerFor_eq]
    cases test tsRegex path <;> simp
  refine ⟨_, rfl, rfl, rfl, rfl, rfl, hlook, ?_, ?_⟩
  · rw [← hlook, ← not_or, ← shouldTransform_eq_false_iff]
    rcases shouldTransform_cases path with h | h
    · simp [transformFile, h]
    · simp [transformFile, h]
  · rcases shouldTransform_cases path with h | h
    · simp [transformFile, h]
    · simpa [transformFile, h] using hcases

/-- C6 as stated fails: with the root directory `/a+b` the path
`/a+b/node_modules/x.test.js` contains the root directory followed by
`/node_modules/`, yet neither exclusion pattern matches it. -/
theorem ignore_root_with_plus_unmatched :
    (utf16 "/a+b" ++ utf16 "/node_modules/") <:+: utf16 "/a+b/node_modules/x.test.js" ∧
      isTestPathIgnored (utf16 "/a+b") (utf16 "/a+b/node_modules/x.test.js") = some false := by
  decide

/-- C6 (amended): `testPathIgnorePatterns` is the sequence of
`<rootDir>/node_modules/` and `<rootDir>/.next/` in that order, and for a root
directory none of whose characters is a pattern syntax character other than
`.`, every test path containing the root directory followed by `/node_modules/`
or by `/.next/` matches the exclusion expression and is dropped. -/
theorem ignore_patterns_cover (rootDir path : JsString)
    (hroot : ∀ c ∈ rootDir, isSyntaxChar c = false ∨ c = '.'.toNat)
    (hpath : (rootDir ++ utf16 "/node_modules/") <:+: path ∨
      (rootDir ++ utf16 "/.next/") <:+: path) :
    jestConfig.testPathIgnorePatterns = ["<rootDir>/node_modules/", "<rootDir>/.next/"] ∧
      isTestPathIgnored rootDir path = some true :=
  ⟨rfl, isTestPathIgnored_of_contains rootDir path hroot hpath⟩

/-- Instance of `ignore_patterns_cover`: under the root `/repo`, a test below
`/repo/.next/` is dropped. -/
theorem ignore_patterns_cover_witness :
    isTestPathIgnored (utf16 "/repo") (utf16 "/repo/.next/server/app.test.js") = some true :=
  (ignore_patterns_cover (utf16 "/repo") (utf16 "/repo/.next/server/app.test.js")
    (by decide) (by decide)).2

/-- C7 as stated fails: the member `headers` of the Next.js configuration is
written as an `async` function, neither a static value nor a synchronous
function, and a call does not hand back the rules directly. -/
theorem headers_member_is_async :
    ("headers", MemberKind.asyncFunction) ∈ jestConfigMembers ++ nextConfigMembers ∧
      ¬ (∀ m ∈ jestConfigMembers ++ nextConfigMembers,
          m.2 = MemberKind.staticValue ∨ m.2 = MemberKind.syncFunction) ∧
      ¬ ∃ rules, nextConfig.headers { args := [], env := [] } = Returned.direct rules := by
  refine ⟨by decide, by decide, ?_⟩
  rintro ⟨rules, h⟩
  cases h

/-- C7 (amended): the one asynchronous operation of the source is the Next.js
`headers` member: it is declared `async`, so a call yields a promise, and that
promise is already fulfilled with the constant sequence of header rules; every
other member of the two exported records is a plain static value. -/
theorem only_headers_is_async (ctx : CallContext) :
    (∀ m ∈ jestConfigMembers, m.2 = MemberKind.staticValue) ∧
      (∀ m ∈ nextConfigMembers, m.1 ≠ "headers" → m.2 = MemberKind.staticValue) ∧
      (∀ m ∈ nextConfigMembers, m.1 = "headers" → m.2 = MemberKind.asyncFunction) ∧
      nextConfig.headers ctx = Returned.deferred (Promise.fulfilled headersBody) := by
  refine ⟨by decide, by decide, by decide, rfl⟩

/-- C8: `headers()` is a constant function: whatever arguments and environment
two calls are made with, they return structurally equal results, the single
`/api/assets` rule with its single Cache-Control pair. -/
theorem headers_constant (ctx1 ctx2 : CallContext) :
    nextConfig.headers ctx1 = nextConfig.headers ctx2 ∧
      nextConfig.headers ctx1 = Returned.deferred (Promise.fulfilled
        [{ source := "/api/assets",
           headers := [{ key := "Cache-Control",
                         value := "public, max-age=31536000, immutable" }] }]) :=
  ⟨rfl, rfl⟩

/-- C9: the `.` of the exclusion pattern `<rootDir>/.next/` is an unescaped
wildcard: for a root directory of plain characters, a path holding the root
followed by `/`, any one code unit that is not a line terminator, and `next/`
is excluded; so under the root `/repo` the path `/repo/xnext/a.test.ts`, which
contains neither `/.next/` nor `/node_modules/`, is excluded, and the excluded
set is strictly larger than the literal one. -/
theorem next_pattern_dot_is_wildcard :
    (∀ (rootDir pre post : JsString) (x : CodeUnit),
        (∀ c ∈ rootDir, isSyntaxChar c = false ∨ c = '.'.toNat) → isLineTerminator x = false →
        isTestPathIgnored rootDir (pre ++ (rootDir ++ '/'.toNat :: x :: utf16 "next/") ++ post) =
          some true) ∧
      ∃ path : JsString, utf16 "/repo/xnext/" <:+: path ∧
        ¬ utf16 "/.next/" <:+: path ∧ ¬ utf16 "/node_modules/" <:+: path ∧
        isTestPathIgnored (utf16 "/repo") path = some true :=
  ⟨isTestPathIgnored_wildcard,
    utf16 "/repo/xnext/a.test.ts", by decide, by decide, by decide, by decide⟩

end FlixorOta
